import Mathlib

/-!
Verification of the trajectory-analysis synthetic simplicial-complex walk
generator (synthetic_analysis/synthetic_sc_walk.py).

The Python source is shallowly embedded below: faces are triples of node
indices, the edge set is derived from the sorted vertices of each retained
face exactly as in random_SC_graph, the B2 incidence entries follow the
branch structure of incidience_matrices, and the walk/training encoding
helpers (path_to_flow, neighborhood_to_onehot, the truncation step of
generate_training_data, the train/test masks, multi_hop_neighborhood and
the region partition of generate_random_walks) are translated function by
function.  Machine floats holding only 0/1 values are modelled as naturals;
numpy arrays are lists; the process-wide random draws are explicit
parameters (the drawn value, or the permutation a shuffle applies).
-/

namespace TrajectoryAnalysis

/-- A triangular face: three node indices, in the (arbitrary) order the
triangulation produced them.  `sorted(f)` in Python is `sortFace`. -/
def Face := ℕ × ℕ × ℕ

instance : DecidableEq Face := by unfold Face; infer_instance

/-- Python `sorted` on a two-element pair, as used for `[e0,e1] = sorted(e)`. -/
def sortPair (e : ℕ × ℕ) : ℕ × ℕ := if e.1 ≤ e.2 then e else (e.2, e.1)

/-- Python `sorted` on the three vertices of a face: `[a,b,c] = sorted(f)`. -/
def sortFace (f : Face) : Face :=
  if f.1 ≤ f.2.1 then
    if f.2.1 ≤ f.2.2 then (f.1, f.2.1, f.2.2)
    else if f.1 ≤ f.2.2 then (f.1, f.2.2, f.2.1)
    else (f.2.2, f.1, f.2.1)
  else
    if f.1 ≤ f.2.2 then (f.2.1, f.1, f.2.2)
    else if f.2.1 ≤ f.2.2 then (f.2.1, f.2.2, f.1)
    else (f.2.2, f.2.1, f.1)

/-- A face has three pairwise distinct vertices (Delaunay triangles are
nondegenerate; this is the standing assumption of random_SC_graph). -/
def FaceDistinct (f : Face) : Prop := f.1 ≠ f.2.1 ∧ f.1 ≠ f.2.2 ∧ f.2.1 ≠ f.2.2

instance (f : Face) : Decidable (FaceDistinct f) := by unfold FaceDistinct; infer_instance

/-- The three directed edges `(a,b), (b,c), (a,c)` that random_SC_graph adds
to the graph for a retained face (after sorting its vertices). -/
def faceEdges (f : Face) : List (ℕ × ℕ) :=
  [((sortFace f).1, (sortFace f).2.1),
   ((sortFace f).2.1, (sortFace f).2.2),
   ((sortFace f).1, (sortFace f).2.2)]

/-- The edge set of the DiGraph G built by random_SC_graph: the union of the
three sorted-direction edges of every retained face (networkx deduplicates
repeated add_edge calls, hence a Finset). -/
def edgeFinset (faces : List Face) : Finset (ℕ × ℕ) :=
  (faces.flatMap faceEdges).toFinset

/-- Python sorts edge tuples lexicographically: `E = sorted(G.edges)`. -/
def edgeLe (p q : ℕ × ℕ) : Prop := p.1 < q.1 ∨ (p.1 = q.1 ∧ p.2 ≤ q.2)

instance : DecidableRel edgeLe := fun p q => by unfold edgeLe; infer_instance

instance : IsTrans (ℕ × ℕ) edgeLe := ⟨by intro a b c h1 h2; unfold edgeLe at *; omega⟩

instance : IsAntisymm (ℕ × ℕ) edgeLe := by
  refine ⟨fun a b h1 h2 => ?_⟩
  obtain ⟨a1, a2⟩ := a
  obtain ⟨b1, b2⟩ := b
  unfold edgeLe at h1 h2
  simp only [Prod.mk.injEq]
  omega

instance : IsTotal (ℕ × ℕ) edgeLe := ⟨by intro a b; unfold edgeLe; omega⟩

/-- The sorted edge list `E` of random_SC_graph. -/
def sortedEdges (faces : List Face) : List (ℕ × ℕ) :=
  (edgeFinset faces).sort edgeLe

/-- One entry of the edge-face incidence matrix B2 as built by
incidience_matrices: row of edge `e`, column of face `f`.  The branch
structure mirrors the Python loop body: if both endpoints of `e` are
vertices of `f` (np.in1d(e,f).all()), compare the sorted endpoints of `e`
against the sorted vertices `[a,b,c]` of `f`. -/
def B2entry (e : ℕ × ℕ) (f : Face) : Int :=
  let s := sortPair e
  let t := sortFace f
  if (s.1 = t.1 ∨ s.1 = t.2.1 ∨ s.1 = t.2.2) ∧
     (s.2 = t.1 ∨ s.2 = t.2.1 ∨ s.2 = t.2.2) then
    if s.1 = t.1 then (if s.2 = t.2.1 then 1 else -1) else 1
  else 0

/-- Modelled from the spec: the repository obtains B1 from the external
call nx.incidence_matrix(G, oriented=True); the spec defines the resulting
column of edge `e = (a,b)` (a &lt; b) as -1 at the lower-index endpoint row,
+1 at the higher-index endpoint row, 0 elsewhere. -/
def B1entry (v : ℕ) (e : ℕ × ℕ) : Int :=
  if v = e.1 then -1 else if v = e.2 then 1 else 0

/- Basic facts about sortFace / faceEdges. -/

theorem sortFace_sorted (f : Face) (h : FaceDistinct f) :
    (sortFace f).1 < (sortFace f).2.1 ∧ (sortFace f).2.1 < (sortFace f).2.2 := by
  obtain ⟨x, y, z⟩ := f
  obtain ⟨h1, h2, h3⟩ := h
  simp only [sortFace]
  split_ifs <;> simp_all <;> omega

theorem sortFace_mem (f : Face) (w : ℕ) :
    (w = (sortFace f).1 ∨ w = (sortFace f).2.1 ∨ w = (sortFace f).2.2) ↔
    (w = f.1 ∨ w = f.2.1 ∨ w = f.2.2) := by
  obtain ⟨x, y, z⟩ := f
  simp only [sortFace]
  split_ifs <;> simp_all <;> tauto

/-- Every edge the construction adds has strictly increasing endpoints. -/
theorem edge_lt (faces : List Face) (hd : ∀ g ∈ faces, FaceDistinct g)
    (e : ℕ × ℕ) (he : e ∈ edgeFinset faces) : e.1 < e.2 := by
  unfold edgeFinset at he
  rw [List.mem_toFinset, List.mem_flatMap] at he
  obtain ⟨f, hf, hef⟩ := he
  have hs := sortFace_sorted f (hd f hf)
  unfold faceEdges at hef
  simp only [List.mem_cons, List.mem_singleton, List.not_mem_nil, or_false] at hef
  rcases hef with h | h | h <;> subst h <;> simp <;> omega

/-- Each side of a retained face is in the edge set. -/
theorem faceEdges_subset (faces : List Face) (f : Face) (hf : f ∈ faces) :
    ∀ e ∈ faceEdges f, e ∈ edgeFinset faces := by
  intro e he
  unfold edgeFinset
  rw [List.mem_toFinset, List.mem_flatMap]
  exact ⟨f, hf, he⟩

/-- B2 entry at the side (a,b) of the face with sorted vertices a&lt;b&lt;c. -/
theorem B2entry_ab (f : Face) (h : FaceDistinct f) :
    B2entry ((sortFace f).1, (sortFace f).2.1) f = 1 := by
  have hs := sortFace_sorted f h
  simp only [B2entry, sortPair]
  split_ifs <;> first | rfl | (exfalso; omega)

/-- B2 entry at the side (b,c) of the face with sorted vertices a&lt;b&lt;c. -/
theorem B2entry_bc (f : Face) (h : FaceDistinct f) :
    B2entry ((sortFace f).2.1, (sortFace f).2.2) f = 1 := by
  have hs := sortFace_sorted f h
  simp only [B2entry, sortPair]
  split_ifs <;> first | rfl | (exfalso; omega)

/-- B2 entry at the side (a,c) of the face with sorted vertices a&lt;b&lt;c. -/
theorem B2entry_ac (f : Face) (h : FaceDistinct f) :
    B2entry ((sortFace f).1, (sortFace f).2.2) f = -1 := by
  have hs := sortFace_sorted f h
  simp only [B2entry, sortPair]
  split_ifs <;> first | rfl | (exfalso; omega)

/-- B2 entry is 0 at any canonically ordered edge that is not a side of the
face. -/
theorem B2entry_zero (f : Face) (h : FaceDistinct f) (e : ℕ × ℕ) (helt : e.1 < e.2)
    (hne : e ∉ faceEdges f) : B2entry e f = 0 := by
  have hs := sortFace_sorted f h
  simp only [B2entry, sortPair, if_pos (le_of_lt helt)]
  simp only [faceEdges, List.mem_cons, List.not_mem_nil, or_false] at hne
  push_neg at hne
  obtain ⟨hn1, hn2, hn3⟩ := hne
  rw [if_neg]
  intro ⟨hm1, hm2⟩
  obtain ⟨e1, e2⟩ := e
  simp only at hm1 hm2 helt
  rcases hm1 with h1 | h1 | h1 <;> rcases hm2 with h2 | h2 | h2 <;>
    subst h1 <;> subst h2 <;> simp_all [Prod.ext_iff] <;> omega

/-- The filtered column of B2 for face f consists exactly of the three sides. -/
theorem B2_filter_eq (faces : List Face) (f : Face)
    (hf : f ∈ faces) (hd : ∀ g ∈ faces, FaceDistinct g) :
    ((sortedEdges faces).filter (fun e => decide (B2entry e f ≠ 0))).toFinset
      = (faceEdges f).toFinset := by
  ext e
  rw [List.mem_toFinset, List.mem_toFinset, List.mem_filter, decide_eq_true_iff]
  constructor
  · rintro ⟨hmem, hne⟩
    by_contra hnot
    have helt : e.1 < e.2 :=
      edge_lt faces hd e ((Finset.mem_sort edgeLe).mp hmem)
    exact hne (B2entry_zero f (hd f hf) e helt hnot)
  · intro he
    refine ⟨(Finset.mem_sort edgeLe).mpr (faceEdges_subset faces f hf e he), ?_⟩
    have hdist := hd f hf
    simp only [faceEdges, List.mem_cons, List.not_mem_nil, or_false] at he
    rcases he with h | h | h <;> subst h
    · rw [B2entry_ab f hdist]; omega
    · rw [B2entry_bc f hdist]; omega
    · rw [B2entry_ac f hdist]; omega

/-- The three sides of a nondegenerate face are pairwise distinct edges. -/
theorem faceEdges_nodup (f : Face) (h : FaceDistinct f) : (faceEdges f).Nodup := by
  have hs := sortFace_sorted f h
  simp [faceEdges, Prod.ext_iff]
  omega

/-- C1: for every retained face f with sorted vertices a&lt;b&lt;c, the three
sides (a,b), (b,c), (a,c) all appear in the sorted edge list E, the B2
column of f carries +1 at edges (a,b) and (b,c) and -1 at edge (a,c), every
edge of E that is not a side of f carries 0 in that column, and the column
has exactly 3 nonzero entries. -/
theorem B2_column_structure (faces : List Face) (f : Face)
    (hf : f ∈ faces) (hd : ∀ g ∈ faces, FaceDistinct g) :
    ((sortFace f).1, (sortFace f).2.1) ∈ sortedEdges faces ∧
    ((sortFace f).2.1, (sortFace f).2.2) ∈ sortedEdges faces ∧
    ((sortFace f).1, (sortFace f).2.2) ∈ sortedEdges faces ∧
    B2entry ((sortFace f).1, (sortFace f).2.1) f = 1 ∧
    B2entry ((sortFace f).2.1, (sortFace f).2.2) f = 1 ∧
    B2entry ((sortFace f).1, (sortFace f).2.2) f = -1 ∧
    (∀ e ∈ sortedEdges faces, e ∉ faceEdges f → B2entry e f = 0) ∧
    (sortedEdges faces).countP (fun e => decide (B2entry e f ≠ 0)) = 3 := by
  have hdist := hd f hf
  have hmem : ∀ e ∈ faceEdges f, e ∈ sortedEdges faces := fun e he =>
    (Finset.mem_sort edgeLe).mpr (faceEdges_subset faces f hf e he)
  refine ⟨?_, ?_, ?_, B2entry_ab f hdist, B2entry_bc f hdist, B2entry_ac f hdist, ?_, ?_⟩
  · exact hmem _ (by simp [faceEdges])
  · exact hmem _ (by simp [faceEdges])
  · exact hmem _ (by simp [faceEdges])
  · intro e he hne
    exact B2entry_zero f hdist e (edge_lt faces hd e ((Finset.mem_sort edgeLe).mp he)) hne
  · rw [List.countP_eq_length_filter]
    have hnd : ((sortedEdges faces).filter (fun e => decide (B2entry e f ≠ 0))).Nodup :=
      (Finset.sort_nodup edgeLe (edgeFinset faces)).filter _
    rw [← List.toFinset_card_of_nodup hnd, B2_filter_eq faces f hf hd,
      List.toFinset_card_of_nodup (faceEdges_nodup f hdist)]
    rfl

/-- Concrete instance of B2_column_structure on the single face (2,0,1). -/
theorem B2_column_structure_witness :
    ((sortFace (2,0,1)).1, (sortFace (2,0,1)).2.1) ∈ sortedEdges [(2,0,1)] ∧
    ((sortFace (2,0,1)).2.1, (sortFace (2,0,1)).2.2) ∈ sortedEdges [(2,0,1)] ∧
    ((sortFace (2,0,1)).1, (sortFace (2,0,1)).2.2) ∈ sortedEdges [(2,0,1)] ∧
    B2entry ((sortFace (2,0,1)).1, (sortFace (2,0,1)).2.1) (2,0,1) = 1 ∧
    B2entry ((sortFace (2,0,1)).2.1, (sortFace (2,0,1)).2.2) (2,0,1) = 1 ∧
    B2entry ((sortFace (2,0,1)).1, (sortFace (2,0,1)).2.2) (2,0,1) = -1 ∧
    (∀ e ∈ sortedEdges [(2,0,1)], e ∉ faceEdges (2,0,1) → B2entry e (2,0,1) = 0) ∧
    (sortedEdges [(2,0,1)]).countP (fun e => decide (B2entry e (2,0,1) ≠ 0)) = 3 :=
  B2_column_structure [(2,0,1)] (2,0,1) (by simp) (by decide)

/-- Pointwise decomposition of a B1 column into two indicator summands. -/
theorem B1entry_split (v : ℕ) (e : ℕ × ℕ) (h : e.1 ≠ e.2) :
    B1entry v e = (if v = e.1 then (-1 : Int) else 0) + (if v = e.2 then 1 else 0) := by
  simp only [B1entry]
  split_ifs <;> omega

/-- C2: every edge (a,b) of the sorted edge list E satisfies a &lt; b, and its
B1 column (rows indexed by the node list 0..n-1) has exactly two nonzero
entries, -1 at row a and +1 at row b, 0 at every other row, so the column
sums to 0. -/
theorem B1_column_structure (faces : List Face) (n : ℕ) (e : ℕ × ℕ)
    (hd : ∀ g ∈ faces, FaceDistinct g)
    (he : e ∈ sortedEdges faces) (hn : e.2 < n) :
    e.1 < e.2 ∧
    B1entry e.1 e = -1 ∧
    B1entry e.2 e = 1 ∧
    (∀ v, v ≠ e.1 → v ≠ e.2 → B1entry v e = 0) ∧
    ((Finset.range n).filter (fun v => B1entry v e ≠ 0)).card = 2 ∧
    (Finset.range n).sum (fun v => B1entry v e) = 0 := by
  have helt : e.1 < e.2 := edge_lt faces hd e ((Finset.mem_sort edgeLe).mp he)
  have hne : e.1 ≠ e.2 := Nat.ne_of_lt helt
  refine ⟨helt, ?_, ?_, ?_, ?_, ?_⟩
  · simp [B1entry]
  · simp [B1entry, Ne.symm hne]
  · intro v h1 h2
    simp only [B1entry]
    rw [if_neg h1, if_neg h2]
  · have hfe : (Finset.range n).filter (fun v => B1entry v e ≠ 0) = {e.1, e.2} := by
      ext v
      simp only [Finset.mem_filter, Finset.mem_range, Finset.mem_insert,
        Finset.mem_singleton, B1entry]
      constructor
      · rintro ⟨hv, hnz⟩
        by_contra hno
        push_neg at hno
        rw [if_neg hno.1, if_neg hno.2] at hnz
        exact hnz rfl
      · rintro (h | h) <;> subst h
        · exact ⟨by omega, by rw [if_pos rfl]; omega⟩
        · refine ⟨hn, ?_⟩
          rw [if_neg (by omega), if_pos rfl]
          omega
    rw [hfe, Finset.card_insert_of_not_mem (by simp [hne]), Finset.card_singleton]
  · have hsum : ∀ v ∈ Finset.range n, B1entry v e
        = (if v = e.1 then (-1 : Int) else 0) + (if v = e.2 then 1 else 0) :=
      fun v _ => B1entry_split v e hne
    rw [Finset.sum_congr rfl hsum, Finset.sum_add_distrib]
    rw [Finset.sum_ite_eq' (Finset.range n) e.1 (fun _ => (-1 : Int)),
      Finset.sum_ite_eq' (Finset.range n) e.2 (fun _ => (1 : Int))]
    rw [if_pos (Finset.mem_range.mpr (by omega)), if_pos (Finset.mem_range.mpr hn)]
    omega

/-- Concrete instance of B1_column_structure: edge (0,1) of the complex with
the single face (2,0,1), with 3 node rows. -/
theorem B1_column_structure_witness :
    (0 : ℕ) < 1 ∧
    B1entry 0 ((0 : ℕ), (1 : ℕ)) = -1 ∧
    B1entry 1 ((0 : ℕ), (1 : ℕ)) = 1 ∧
    (∀ v, v ≠ 0 → v ≠ 1 → B1entry v ((0 : ℕ), (1 : ℕ)) = 0) ∧
    ((Finset.range 3).filter (fun v => B1entry v ((0 : ℕ), (1 : ℕ)) ≠ 0)).card = 2 ∧
    (Finset.range 3).sum (fun v => B1entry v ((0 : ℕ), (1 : ℕ))) = 0 :=
  B1_column_structure [(2,0,1)] 3 (0, 1) (by decide)
    (by simp only [sortedEdges, Finset.mem_sort, edgeFinset, List.mem_toFinset]; decide)
    (by decide)

/-! Walk truncation in generate_training_data. -/

/-- The size argument passed to np.random.choice when truncating a walk:
len(p) - 4 + (max(hops) - 1), in Python int arithmetic. -/
def truncWindow (p : List ℕ) (maxH : ℕ) : Int :=
  (p.length : Int) - 4 + ((maxH : Int) - 1)

/-- Modelled from the spec: np.random.choice(k) for an integer k draws
uniformly from 0..k-1 and raises a ValueError when k ≤ 0 (the none case);
the drawn value r is an explicit parameter. -/
def randomChoice (k : Int) (r : ℕ) : Option ℕ :=
  if k ≤ 0 then none else if (r : Int) < k then some r else none

/-- One walk's truncation step in generate_training_data:
p[:4 + np.random.choice(len(p) - 4 + (max(hops) - 1))]. -/
def truncateWalk (p : List ℕ) (maxH : ℕ) (r : ℕ) : Option (List ℕ) :=
  (randomChoice (truncWindow p maxH) r).map (fun c => p.take (4 + c))

/-- C3 fails as stated: for the walk [0,1,2,3,4,5] (length 6 ≥ 4) and hop
set {1}, the admissible draw r = 1 yields a truncated walk of length 5,
outside the claimed interval [4, 4 + max(H) - 1] = [4, 4]. -/
theorem truncation_length_counterexample :
    truncateWalk [0,1,2,3,4,5] 1 1 = some [0,1,2,3,4] ∧
    ([0,1,2,3,4] : List ℕ).length = 5 ∧ ¬(5 ≤ 4 + 1 - 1) := by decide

/-- C3 amended: for a walk p with len(p) ≥ 4 and max hop ≥ 1, a successful
truncation returns a walk whose length lies in [4, len(p)] and is at most
len(p) + max(H) - 2; the window thus depends on len(p), not only on H. -/
theorem truncation_length_bounds (p : List ℕ) (maxH r : ℕ) (q : List ℕ)
    (hp : 4 ≤ p.length) (hq : truncateWalk p maxH r = some q) :
    4 ≤ q.length ∧ q.length ≤ p.length ∧
    (q.length : Int) ≤ (p.length : Int) + (maxH : Int) - 2 := by
  by_cases h1 : truncWindow p maxH ≤ 0
  · simp [truncateWalk, randomChoice, h1] at hq
  · by_cases h2 : (r : Int) < truncWindow p maxH
    · simp only [truncateWalk, randomChoice, if_neg h1, if_pos h2, Option.map_some',
        Option.some.injEq] at hq
      subst hq
      rw [List.length_take]
      unfold truncWindow at h2
      refine ⟨by omega, by omega, ?_⟩
      push_cast
      omega
    · simp [truncateWalk, randomChoice, h1, h2] at hq

/-- Concrete instance of truncation_length_bounds: the walk [0,1,2,3,4,5]
with max hop 2 and draw r = 2 truncates to all 6 nodes. -/
theorem truncation_length_bounds_witness :
    4 ≤ ([0,1,2,3,4,5] : List ℕ).length ∧
    ([0,1,2,3,4,5] : List ℕ).length ≤ ([0,1,2,3,4,5] : List ℕ).length ∧
    (([0,1,2,3,4,5] : List ℕ).length : Int)
      ≤ (([0,1,2,3,4,5] : List ℕ).length : Int) + ((2 : ℕ) : Int) - 2 :=
  truncation_length_bounds [0,1,2,3,4,5] 2 2 [0,1,2,3,4,5] (by decide) (by decide)

/-- C9: when len(p) - 4 + (max(hops) - 1) ≤ 0 (for example a walk of
exactly 4 nodes with hop set {1}), the truncation step fails
(np.random.choice raises) instead of producing a truncated walk. -/
theorem short_walk_truncation_fails (p : List ℕ) (maxH r : ℕ)
    (h : truncWindow p maxH ≤ 0) : truncateWalk p maxH r = none := by
  simp [truncateWalk, randomChoice, h]

/-- Concrete instance of short_walk_truncation_fails: the 4-node walk
[0,1,2,3] with hop set {1}. -/
theorem short_walk_truncation_fails_witness :
    truncWindow [0,1,2,3] 1 ≤ 0 ∧ truncateWalk [0,1,2,3] 1 0 = none :=
  ⟨by decide, short_walk_truncation_fails [0,1,2,3] 1 0 (by decide)⟩

/-! Train/test masks. -/

/-- The unshuffled train mask of generate_training_data:
[1] * int(N * 0.8) + [0] * int(N * 0.2).  For every N the double-precision
products N * 0.8 and N * 0.2 truncate to floor(4N/5) and floor(N/5), which
is how the two int(...) counts are rendered here. -/
def trainMaskBase (N : ℕ) : List ℕ :=
  List.replicate (4 * N / 5) 1 ++ List.replicate (N / 5) 0

/-- test_mask = 1 - train_mask, elementwise. -/
def testMaskOf (mask : List ℕ) : List ℕ := mask.map (fun x => 1 - x)

/-- C4 fails as stated at m = 7: the train mask has
floor(0.8*7) + floor(0.2*7) = 6 entries, not 7 (shuffling preserves
length), so the masks cannot cover all 7 examples. -/
theorem train_mask_length_counterexample :
    (trainMaskBase 7).length = 6 ∧ (6 : ℕ) ≠ 7 := by decide

/-- C4 amended: for any shuffle (permutation) of the unshuffled train mask,
the mask has floor(0.8N) + floor(0.2N) entries (equal to N only when 5
divides N, else N - 1 of them), floor(0.8N) ones and floor(0.2N) zeros, all
entries 0/1, and test_mask is the exact elementwise complement of the mask
on this common length. -/
theorem train_test_mask_structure (N : ℕ) (mask : List ℕ)
    (hperm : mask.Perm (trainMaskBase N)) :
    mask.length = 4 * N / 5 + N / 5 ∧
    mask.count 1 = 4 * N / 5 ∧
    mask.count 0 = N / 5 ∧
    (∀ x ∈ mask, x = 0 ∨ x = 1) ∧
    (testMaskOf mask).length = mask.length ∧
    (∀ i, i < mask.length → mask.getD i 0 + (testMaskOf mask).getD i 0 = 1) ∧
    (5 ∣ N → mask.length = N) := by
  have hmem : ∀ x ∈ mask, x = 0 ∨ x = 1 := by
    intro x hx
    have := hperm.mem_iff.mp hx
    simp only [trainMaskBase, List.mem_append, List.mem_replicate] at this
    omega
  have hlen : mask.length = 4 * N / 5 + N / 5 := by
    rw [hperm.length_eq]
    simp [trainMaskBase]
  refine ⟨hlen, ?_, ?_, hmem, by simp [testMaskOf], ?_, fun hdvd => by omega⟩
  · rw [hperm.count_eq]
    simp [trainMaskBase, List.count_replicate]
  · rw [hperm.count_eq]
    simp [trainMaskBase, List.count_replicate]
  · intro i hi
    have hgm : (testMaskOf mask).getD i 0 = 1 - mask.getD i 0 := by
      rw [List.getD_eq_getElem _ _ (by simpa [testMaskOf] using hi),
        List.getD_eq_getElem _ _ hi]
      simp [testMaskOf]
    have hx : mask.getD i 0 = 0 ∨ mask.getD i 0 = 1 := by
      apply hmem
      rw [List.getD_eq_getElem _ _ hi]
      apply List.getElem_mem
    omega

/-- Concrete instance of train_test_mask_structure at N = 10 with the
identity shuffle. -/
theorem train_test_mask_structure_witness :
    (trainMaskBase 10).length = 4 * 10 / 5 + 10 / 5 ∧
    (trainMaskBase 10).count 1 = 4 * 10 / 5 ∧
    (trainMaskBase 10).count 0 = 10 / 5 ∧
    (∀ x ∈ trainMaskBase 10, x = 0 ∨ x = 1) ∧
    (testMaskOf (trainMaskBase 10)).length = (trainMaskBase 10).length ∧
    (∀ i, i < (trainMaskBase 10).length →
      (trainMaskBase 10).getD i 0 + (testMaskOf (trainMaskBase 10)).getD i 0 = 1) ∧
    (5 ∣ 10 → (trainMaskBase 10).length = 10) :=
  train_test_mask_structure 10 (trainMaskBase 10) (List.Perm.refl _)

/-! One-hot targets. -/

/-- neighborhood_to_onehot: the indicator (Nv == w) written into the first
len(Nv) entries of a zero vector of length D (the float 0/1 values are
rendered as naturals). -/
def neighborhood_to_onehot (Nv : List ℕ) (w D : ℕ) : List ℕ :=
  Nv.map (fun x => if x = w then 1 else 0) ++ List.replicate (D - Nv.length) 0

/-- A left-padded zero vector reads 0 at every index. -/
theorem getD_replicate_zero (n j : ℕ) : (List.replicate n (0 : ℕ)).getD j 0 = 0 := by
  rcases Nat.lt_or_ge j n with h | h
  · rw [List.getD_eq_getElem _ _ (by simpa using h)]
    exact List.getElem_replicate 0 _
  · exact List.getD_eq_default _ _ (by simpa using h)

/-- Entry i of the one-hot vector: the indicator of Nv[i] = w inside the
neighbor segment, 0 in the padding and out of range. -/
theorem onehot_getD (Nv : List ℕ) (w D i : ℕ) :
    (neighborhood_to_onehot Nv w D).getD i 0
      = if h : i < Nv.length then (if Nv.get ⟨i, h⟩ = w then 1 else 0) else 0 := by
  unfold neighborhood_to_onehot
  rcases Nat.lt_or_ge i Nv.length with h | h
  · rw [dif_pos h, List.getD_append _ _ _ _ (by simpa using h),
      List.getD_eq_getElem _ _ (by simpa using h)]
    simp
  · rw [dif_neg (by omega), List.getD_append_right _ _ _ _ (by simpa using h)]
    exact getD_replicate_zero _ _

/-- C5: for a duplicate-free (sorted) neighbor list Nv of the pivot with
deg = len(Nv) ≤ D: the one-hot target has length D; when the true next
node w is a member of Nv, the entry at the position of w within Nv is 1 and
every other entry (in particular every entry at positions ≥ deg) is 0, so
exactly one entry equals 1; when w is not a member of Nv the whole vector
is 0 (no failure). -/
theorem onehot_structure (Nv : List ℕ) (w D : ℕ)
    (hnd : Nv.Nodup) (hD : Nv.length ≤ D) :
    (neighborhood_to_onehot Nv w D).length = D ∧
    (w ∈ Nv →
      Nv.indexOf w < Nv.length ∧
      (neighborhood_to_onehot Nv w D).getD (Nv.indexOf w) 0 = 1 ∧
      (∀ i, i ≠ Nv.indexOf w → (neighborhood_to_onehot Nv w D).getD i 0 = 0)) ∧
    (w ∉ Nv → ∀ i, (neighborhood_to_onehot Nv w D).getD i 0 = 0) := by
  refine ⟨?_, ?_, ?_⟩
  · simp only [neighborhood_to_onehot, List.length_append, List.length_map,
      List.length_replicate]
    omega
  · intro hw
    have hidx : Nv.indexOf w < Nv.length := List.indexOf_lt_length.mpr hw
    refine ⟨hidx, ?_, ?_⟩
    · rw [onehot_getD, dif_pos hidx]
      simp [List.indexOf_get hidx]
    · intro i hi
      rw [onehot_getD]
      rcases Nat.lt_or_ge i Nv.length with h | h
      · rw [dif_pos h, if_neg]
        intro hc
        apply hi
        have := List.indexOf_getElem hnd i h
        simp only [List.get_eq_getElem] at hc
        rw [← this, hc]
      · rw [dif_neg (by omega)]
  · intro hw i
    rw [onehot_getD]
    rcases Nat.lt_or_ge i Nv.length with h | h
    · rw [dif_pos h, if_neg]
      intro hc
      exact hw (hc ▸ List.get_mem Nv i h)
    · rw [dif_neg (by omega)]

/-- Concrete instance of onehot_structure: Nv = [2,5,9], w = 5, D = 4. -/
theorem onehot_structure_witness :
    (neighborhood_to_onehot [2,5,9] 5 4).length = 4 ∧
    ((5 : ℕ) ∈ ([2,5,9] : List ℕ) →
      ([2,5,9] : List ℕ).indexOf 5 < ([2,5,9] : List ℕ).length ∧
      (neighborhood_to_onehot [2,5,9] 5 4).getD (([2,5,9] : List ℕ).indexOf 5) 0 = 1 ∧
      (∀ i, i ≠ ([2,5,9] : List ℕ).indexOf 5 →
        (neighborhood_to_onehot [2,5,9] 5 4).getD i 0 = 0)) ∧
    ((5 : ℕ) ∉ ([2,5,9] : List ℕ) →
      ∀ i, (neighborhood_to_onehot [2,5,9] 5 4).getD i 0 = 0) :=
  onehot_structure [2,5,9] 5 4 (by decide) (by decide)

/-! Flow vectors. -/

/-- E_lookup indexes edges by position in E; align the BEq instance used by
List.indexOf with decidable equality on pairs. -/
instance : BEq (ℕ × ℕ) := instBEqOfDecidableEq

instance : LawfulBEq (ℕ × ℕ) where
  eq_of_beq h := of_decide_eq_true h
  rfl := decide_eq_true rfl

/-- One iteration of the path_to_flow loop: the step from v0 to v1 adds 1
at the row of edge (v0,v1) when v0 &lt; v1, else subtracts 1 at the row of
edge (v1,v0). -/
def applyStep (E : List (ℕ × ℕ)) (f : List Int) (v0 v1 : ℕ) : List Int :=
  if v0 < v1 then
    f.set (E.indexOf (v0, v1)) (f.getD (E.indexOf (v0, v1)) 0 + 1)
  else
    f.set (E.indexOf (v1, v0)) (f.getD (E.indexOf (v1, v0)) 0 - 1)

/-- The loop of path_to_flow over the consecutive pairs of the path. -/
def flowLoop (E : List (ℕ × ℕ)) (f : List Int) : List ℕ → List Int
  | v0 :: v1 :: rest => flowLoop E (applyStep E f v0 v1) (v1 :: rest)
  | _ => f

/-- path_to_flow: starts from the zero vector of length |E| = m and
accumulates ±1 per traversed edge over the path. -/
def path_to_flow (path : List ℕ) (E : List (ℕ × ℕ)) : List Int :=
  flowLoop E (List.replicate E.length 0) path

/-- The consecutive node pairs of a path, in order. -/
def steps : List ℕ → List (ℕ × ℕ)
  | v0 :: v1 :: rest => (v0, v1) :: steps (v1 :: rest)
  | _ => []

theorem getD_set_self (l : List Int) (k : ℕ) (x : Int) (h : k < l.length) :
    (l.set k x).getD k 0 = x := by
  rw [List.getD_eq_getElem _ _ (by simpa using h)]
  simp

theorem getD_set_ne (l : List Int) (k j : ℕ) (x : Int) (h : k ≠ j) :
    (l.set k x).getD j 0 = l.getD j 0 := by
  rcases Nat.lt_or_ge j l.length with hj | hj
  · rw [List.getD_eq_getElem _ _ (by simpa using hj), List.getD_eq_getElem _ _ hj]
    exact List.getElem_set_ne h (by simpa using hj)
  · rw [List.getD_eq_default _ _ (by simpa using hj), List.getD_eq_default _ _ hj]

/-- Effect of one loop iteration on the row of a canonical edge e. -/
theorem applyStep_getD (E : List (ℕ × ℕ)) (hE : E.Nodup) (e : ℕ × ℕ) (he : e ∈ E)
    (hel : e.1 < e.2) (f : List Int) (hf : f.length = E.length)
    (v0 v1 : ℕ) (hne : v0 ≠ v1) (hmem : sortPair (v0, v1) ∈ E) :
    (applyStep E f v0 v1).getD (E.indexOf e) 0
      = f.getD (E.indexOf e) 0 + (if (v0, v1) = e then 1 else 0)
        - (if (v0, v1) = (e.2, e.1) then 1 else 0) := by
  obtain ⟨e1, e2⟩ := e
  have hel' : e1 < e2 := hel
  show (applyStep E f v0 v1).getD (E.indexOf (e1, e2)) 0
      = f.getD (E.indexOf (e1, e2)) 0 + (if (v0, v1) = (e1, e2) then 1 else 0)
        - (if (v0, v1) = (e2, e1) then 1 else 0)
  have hidx : E.indexOf (e1, e2) < f.length := hf ▸ List.indexOf_lt_length.mpr he
  by_cases hlt : v0 < v1
  · have hmem' : (v0, v1) ∈ E := by
      simpa [sortPair, if_pos (Nat.le_of_lt hlt)] using hmem
    have hnd : (v0, v1) ≠ (e2, e1) := by
      intro hc
      rw [Prod.mk.injEq] at hc
      omega
    rw [if_neg hnd]
    simp only [applyStep, if_pos hlt]
    by_cases heq : (v0, v1) = (e1, e2)
    · rw [if_pos heq, heq, getD_set_self _ _ _ hidx]
      ring
    · rw [if_neg heq, getD_set_ne]
      · ring
      · intro hc
        exact heq ((List.indexOf_inj hmem' he).mp hc)
  · have hgt : v1 < v0 := by omega
    have hmem' : (v1, v0) ∈ E := by
      simpa [sortPair, if_neg (by omega : ¬ v0 ≤ v1)] using hmem
    have hnd : (v0, v1) ≠ (e1, e2) := by
      intro hc
      rw [Prod.mk.injEq] at hc
      omega
    rw [if_neg hnd]
    simp only [applyStep, if_neg hlt]
    by_cases heq : (v0, v1) = (e2, e1)
    · have heq' : (v1, v0) = (e1, e2) := by
        rw [Prod.mk.injEq] at heq ⊢
        omega
      rw [if_pos heq, heq', getD_set_self _ _ _ hidx]
      ring
    · have heq' : (v1, v0) ≠ (e1, e2) := by
        intro hc
        apply heq
        rw [Prod.mk.injEq] at hc ⊢
        omega
      rw [if_neg heq, getD_set_ne]
      · ring
      · intro hc
        exact heq' ((List.indexOf_inj hmem' he).mp hc)

/-- Running the loop adds the net signed traversal count of edge e to its
row. -/
theorem flowLoop_getD (E : List (ℕ × ℕ)) (hE : E.Nodup) (e : ℕ × ℕ) (he : e ∈ E)
    (hel : e.1 < e.2) :
    ∀ (path : List ℕ) (f : List Int), f.length = E.length →
      (∀ s ∈ steps path, s.1 ≠ s.2 ∧ sortPair s ∈ E) →
      (flowLoop E f path).getD (E.indexOf e) 0
        = f.getD (E.indexOf e) 0 + ((steps path).count e : Int)
          - ((steps path).count (e.2, e.1) : Int)
  | [], f, hf, hpath => by simp [flowLoop, steps]
  | [v], f, hf, hpath => by simp [flowLoop, steps]
  | v0 :: v1 :: rest, f, hf, hpath => by
    obtain ⟨hne0, hmem0⟩ := hpath (v0, v1) (by simp [steps])
    have hne1 : v0 ≠ v1 := hne0
    have hrec := flowLoop_getD E hE e he hel (v1 :: rest) (applyStep E f v0 v1)
      (by simp only [applyStep]; split_ifs <;> simp [hf])
      (fun s hs => hpath s (by simp only [steps, List.mem_cons]; tauto))
    show (flowLoop E (applyStep E f v0 v1) (v1 :: rest)).getD (E.indexOf e) 0 = _
    rw [hrec, applyStep_getD E hE e he hel f hf v0 v1 hne1 hmem0]
    show _ = f.getD (E.indexOf e) 0
      + (((v0, v1) :: steps (v1 :: rest)).count e : Int)
      - (((v0, v1) :: steps (v1 :: rest)).count (e.2, e.1) : Int)
    rw [List.count_cons, List.count_cons]
    have hswap : e ≠ (e.2, e.1) := by
      intro hc
      have hc1 := congrArg Prod.fst hc
      simp only at hc1
      omega
    by_cases h1 : (v0, v1) = e <;> by_cases h2 : (v0, v1) = (e.2, e.1) <;>
      simp [h1, h2, hswap, Ne.symm hswap] <;> push_cast <;> ring

/-- C7: for a path whose consecutive pairs are all edges of the complex,
the flow vector of path_to_flow carries, at the row of each edge e of E,
the number of traversals of e in the lower-to-higher direction minus the
number in the opposite direction (0 when the path never touches e; the
accumulated value may exceed ±1 when e is retraced). -/
theorem path_to_flow_correct (path : List ℕ) (E : List (ℕ × ℕ)) (e : ℕ × ℕ)
    (hE : E.Nodup) (hcanon : ∀ d ∈ E, d.1 < d.2)
    (hpath : ∀ s ∈ steps path, s.1 ≠ s.2 ∧ sortPair s ∈ E)
    (he : e ∈ E) :
    (path_to_flow path E).getD (E.indexOf e) 0
      = ((steps path).count e : Int) - ((steps path).count (e.2, e.1) : Int) := by
  rw [path_to_flow, flowLoop_getD E hE e he (hcanon e he) path
    (List.replicate E.length 0) (by simp) hpath]
  rcases Nat.lt_or_ge (E.indexOf e) E.length with h | h
  · rw [List.getD_eq_getElem _ _ (by simpa using h), List.getElem_replicate 0 _]
    ring
  · rw [List.getD_eq_default _ _ (by simpa using h)]
    ring

/-! Walk concatenation. -/

/-- The concatenation of the three shortest-path segments of one walk in
generate_random_walks, dropping the final node of every segment except the
last: sp(begin,v1)[:-1] + sp(v1,v2)[:-1] + sp(v2,end). -/
def concatWalk (p1 p2 p3 : List ℕ) : List ℕ :=
  p1.dropLast ++ p2.dropLast ++ p3

/-- Dropping the last node of a chain and appending a chain that starts at
that node preserves chain adjacency. -/
theorem chain_dropLast_append (adj : ℕ → ℕ → Prop) :
    ∀ (p q : List ℕ), List.Chain' adj p → List.Chain' adj q →
      p.getLast? = q.head? → List.Chain' adj (p.dropLast ++ q)
  | [], q, _, hq, _ => by simpa using hq
  | [a], q, _, hq, _ => by simpa using hq
  | a :: b :: t, q, hp, hq, hpq => by
    rw [List.chain'_cons] at hp
    have hrec := chain_dropLast_append adj (b :: t) q hp.2 hq
      (by rw [← hpq, List.getLast?_cons_cons])
    show List.Chain' adj (a :: ((b :: t).dropLast ++ q))
    rw [List.chain'_cons']
    refine ⟨?_, hrec⟩
    intro z hz
    cases t with
    | nil =>
      simp only [List.dropLast_single, List.nil_append] at hz
      have : q.head? = some b := by
        rw [← hpq]
        rfl
      rw [this] at hz
      cases hz
      exact hp.1
    | cons c t2 =>
      simp only [List.dropLast_cons₂, List.cons_append, List.head?_cons] at hz
      cases hz
      exact hp.1

/-- C8: if each of the three shortest-path segments is a chain of adjacent
nodes, and each segment starts at the node where the previous one ends,
then every pair of consecutive nodes of the concatenated walk is adjacent,
including at the two segment joints. -/
theorem concat_walk_adjacent (adj : ℕ → ℕ → Prop) (p1 p2 p3 : List ℕ)
    (h1 : List.Chain' adj p1) (h2 : List.Chain' adj p2) (h3 : List.Chain' adj p3)
    (h12 : p1.getLast? = p2.head?) (h23 : p2.getLast? = p3.head?)
    (hne2 : p2 ≠ []) :
    List.Chain' adj (concatWalk p1 p2 p3) := by
  unfold concatWalk
  rw [List.append_assoc]
  apply chain_dropLast_append adj p1 _ h1 (chain_dropLast_append adj p2 p3 h2 h3 h23)
  rw [h12]
  cases p2 with
  | nil => exact absurd rfl hne2
  | cons b t =>
    cases t with
    | nil => simpa using h23
    | cons c t2 => simp [List.dropLast_cons₂]

/-- A sample adjacency relation for the witness: consecutive integers. -/
def adjSample (a b : ℕ) : Prop := a + 1 = b ∨ b + 1 = a

instance (a b : ℕ) : Decidable (adjSample a b) := by unfold adjSample; infer_instance

/-- Concrete instance of concat_walk_adjacent: segments [0,1], [1,2], [2,3]
concatenate to the adjacent walk [0,1,2,3]. -/
theorem concat_walk_adjacent_witness :
    List.Chain' adjSample (concatWalk [0,1] [1,2] [2,3]) :=
  concat_walk_adjacent adjSample [0,1] [1,2] [2,3]
    (by simp [List.chain'_cons, adjSample]) (by simp [List.chain'_cons, adjSample])
    (by simp [List.chain'_cons, adjSample]) (by decide) (by decide) (by decide)

/-! Region partition of generate_random_walks. -/

/-- BEGIN region: points with coordinate sum below 1/4. -/
def inBEGIN (x y : ℚ) : Prop := x + y < 1/4

/-- END region: points with coordinate sum above 7/4. -/
def inEND (x y : ℚ) : Prop := x + y > 7/4

/-- A0: middle band 1/4 &lt; x+y &lt; 1 with |y-x| &lt; 1/2. -/
def inA0 (x y : ℚ) : Prop := (1/4 < x + y ∧ x + y < 1) ∧ y - x < 1/2 ∧ y - x > -(1/2)

/-- A1: middle band 1/4 &lt; x+y &lt; 1 with y-x &gt; 1/2. -/
def inA1 (x y : ℚ) : Prop := (1/4 < x + y ∧ x + y < 1) ∧ y - x > 1/2

/-- A2: middle band 1/4 &lt; x+y &lt; 1 with y-x &lt; -1/2. -/
def inA2 (x y : ℚ) : Prop := (1/4 < x + y ∧ x + y < 1) ∧ y - x < -(1/2)

/-- B0: band 1 &lt; x+y &lt; 7/4 with |y-x| &lt; 1/2. -/
def inB0 (x y : ℚ) : Prop := (x + y < 7/4 ∧ 1 < x + y) ∧ y - x < 1/2 ∧ y - x > -(1/2)

/-- B1: band 1 &lt; x+y &lt; 7/4 with y-x &gt; 1/2. -/
def inB1 (x y : ℚ) : Prop := (x + y < 7/4 ∧ 1 < x + y) ∧ y - x > 1/2

/-- B2: band 1 &lt; x+y &lt; 7/4 with y-x &lt; -1/2. -/
def inB2 (x y : ℚ) : Prop := (x + y < 7/4 ∧ 1 < x + y) ∧ y - x < -(1/2)

instance (x y : ℚ) : Decidable (inBEGIN x y) := by unfold inBEGIN; infer_instance

instance (x y : ℚ) : Decidable (inEND x y) := by unfold inEND; infer_instance

instance (x y : ℚ) : Decidable (inA0 x y) := by unfold inA0; infer_instance

instance (x y : ℚ) : Decidable (inA1 x y) := by unfold inA1; infer_instance

instance (x y : ℚ) : Decidable (inA2 x y) := by unfold inA2; infer_instance

instance (x y : ℚ) : Decidable (inB0 x y) := by unfold inB0; infer_instance

instance (x y : ℚ) : Decidable (inB1 x y) := by unfold inB1; infer_instance

instance (x y : ℚ) : Decidable (inB2 x y) := by unfold inB2; infer_instance

/-- How many of the eight region predicates hold at a point. -/
def regionCount (x y : ℚ) : ℕ :=
  (if inBEGIN x y then 1 else 0) + (if inA0 x y then 1 else 0)
  + (if inA1 x y then 1 else 0) + (if inA2 x y then 1 else 0)
  + (if inB0 x y then 1 else 0) + (if inB1 x y then 1 else 0)
  + (if inB2 x y then 1 else 0) + (if inEND x y then 1 else 0)

/-- The three A-corridors are empty outside the band 1/4 &lt; x+y &lt; 1. -/
theorem offA (x y : ℚ) (h : x + y ≤ 1/4 ∨ 1 ≤ x + y) :
    ¬ inA0 x y ∧ ¬ inA1 x y ∧ ¬ inA2 x y := by
  unfold inA0 inA1 inA2
  refine ⟨?_, ?_, ?_⟩ <;> rintro ⟨⟨h1, h2⟩, -⟩ <;> rcases h with h | h <;> linarith

/-- The three B-corridors are empty outside the band 1 &lt; x+y &lt; 7/4. -/
theorem offB (x y : ℚ) (h : x + y ≤ 1 ∨ 7/4 ≤ x + y) :
    ¬ inB0 x y ∧ ¬ inB1 x y ∧ ¬ inB2 x y := by
  unfold inB0 inB1 inB2
  refine ⟨?_, ?_, ?_⟩ <;> rintro ⟨⟨h1, h2⟩, -⟩ <;> rcases h with h | h <;> linarith

/-- At most one A-corridor holds at a point: they use disjoint d-ranges. -/
theorem atMostOneA (x y : ℚ) :
    (if inA0 x y then 1 else 0) + (if inA1 x y then 1 else 0)
      + (if inA2 x y then 1 else 0) ≤ 1 := by
  unfold inA0 inA1 inA2
  split_ifs with h0 h1 h2 <;> norm_num
  all_goals
    (try obtain ⟨g1, g2, g3⟩ := h0
     try obtain ⟨g4, g5⟩ := h1
     try obtain ⟨g6, g7⟩ := h2
     linarith)

/-- At most one B-corridor holds at a point. -/
theorem atMostOneB (x y : ℚ) :
    (if inB0 x y then 1 else 0) + (if inB1 x y then 1 else 0)
      + (if inB2 x y then 1 else 0) ≤ 1 := by
  unfold inB0 inB1 inB2
  split_ifs with h0 h1 h2 <;> norm_num
  all_goals
    (try obtain ⟨g1, g2, g3⟩ := h0
     try obtain ⟨g4, g5⟩ := h1
     try obtain ⟨g6, g7⟩ := h2
     linarith)

/-- C6: for a point of the half-open unit square, the eight regions are
mutually exclusive (no point satisfies two of them), and a point lying
exactly on a threshold boundary (x+y equal to 1/4, 1 or 7/4, or y-x equal
to ±1/2) belongs to none of them. -/
theorem regions_mutually_exclusive (x y : ℚ)
    (hx0 : 0 ≤ x) (hx1 : x < 1) (hy0 : 0 ≤ y) (hy1 : y < 1) :
    regionCount x y ≤ 1 ∧
    ((x + y = 1/4 ∨ x + y = 1 ∨ x + y = 7/4 ∨ y - x = 1/2 ∨ y - x = -(1/2)) →
      regionCount x y = 0) := by
  refine ⟨?_, ?_⟩
  · unfold regionCount
    rcases lt_trichotomy (x + y) (1/4) with hs1 | hs1 | hs1
    · obtain ⟨nA0, nA1, nA2⟩ := offA x y (Or.inl (le_of_lt hs1))
      obtain ⟨nB0, nB1, nB2⟩ := offB x y (Or.inl (by linarith))
      have nE : ¬ inEND x y := by unfold inEND; intro hc; linarith
      simp only [nA0, nA1, nA2, nB0, nB1, nB2, nE, if_false, add_zero]
      split_ifs <;> norm_num
    · have nBEG : ¬ inBEGIN x y := by unfold inBEGIN; intro hc; linarith
      obtain ⟨nA0, nA1, nA2⟩ := offA x y (Or.inl (le_of_eq hs1))
      obtain ⟨nB0, nB1, nB2⟩ := offB x y (Or.inl (by linarith))
      have nE : ¬ inEND x y := by unfold inEND; intro hc; linarith
      simp [nBEG, nA0, nA1, nA2, nB0, nB1, nB2, nE]
    · have nBEG : ¬ inBEGIN x y := by unfold inBEGIN; intro hc; linarith
      rcases lt_trichotomy (x + y) 1 with hs2 | hs2 | hs2
      · obtain ⟨nB0, nB1, nB2⟩ := offB x y (Or.inl (le_of_lt hs2))
        have nE : ¬ inEND x y := by unfold inEND; intro hc; linarith
        simpa [nBEG, nB0, nB1, nB2, nE] using atMostOneA x y
      · obtain ⟨nA0, nA1, nA2⟩ := offA x y (Or.inr (le_of_eq hs2.symm))
        obtain ⟨nB0, nB1, nB2⟩ := offB x y (Or.inl (le_of_eq hs2))
        have nE : ¬ inEND x y := by unfold inEND; intro hc; linarith
        simp [nBEG, nA0, nA1, nA2, nB0, nB1, nB2, nE]
      · obtain ⟨nA0, nA1, nA2⟩ := offA x y (Or.inr (le_of_lt hs2))
        rcases lt_trichotomy (x + y) (7/4) with hs3 | hs3 | hs3
        · have nE : ¬ inEND x y := by unfold inEND; intro hc; linarith
          simpa [nBEG, nA0, nA1, nA2, nE] using atMostOneB x y
        · obtain ⟨nB0, nB1, nB2⟩ := offB x y (Or.inr (le_of_eq hs3.symm))
          have nE : ¬ inEND x y := by unfold inEND; intro hc; linarith
          simp [nBEG, nA0, nA1, nA2, nB0, nB1, nB2, nE]
        · obtain ⟨nB0, nB1, nB2⟩ := offB x y (Or.inr (le_of_lt hs3))
          simp only [nBEG, nA0, nA1, nA2, nB0, nB1, nB2, if_false, add_zero, zero_add]
          split_ifs <;> norm_num
  · intro hb
    have nBEG : ¬ inBEGIN x y := by
      unfold inBEGIN
      intro hc
      rcases hb with hb | hb | hb | hb | hb <;> linarith
    have nE : ¬ inEND x y := by
      unfold inEND
      intro hc
      rcases hb with hb | hb | hb | hb | hb <;> linarith
    have nA0 : ¬ inA0 x y := by
      unfold inA0
      rintro ⟨⟨h1, h2⟩, h3, h4⟩
      rcases hb with hb | hb | hb | hb | hb <;> linarith
    have nA1 : ¬ inA1 x y := by
      unfold inA1
      rintro ⟨⟨h1, h2⟩, h3⟩
      rcases hb with hb | hb | hb | hb | hb <;> linarith
    have nA2 : ¬ inA2 x y := by
      unfold inA2
      rintro ⟨⟨h1, h2⟩, h3⟩
      rcases hb with hb | hb | hb | hb | hb <;> linarith
    have nB0 : ¬ inB0 x y := by
      unfold inB0
      rintro ⟨⟨h1, h2⟩, h3, h4⟩
      rcases hb with hb | hb | hb | hb | hb <;> linarith
    have nB1 : ¬ inB1 x y := by
      unfold inB1
      rintro ⟨⟨h1, h2⟩, h3⟩
      rcases hb with hb | hb | hb | hb | hb <;> linarith
    have nB2 : ¬ inB2 x y := by
      unfold inB2
      rintro ⟨⟨h1, h2⟩, h3⟩
      rcases hb with hb | hb | hb | hb | hb <;> linarith
    simp [regionCount, nBEG, nA0, nA1, nA2, nB0, nB1, nB2, nE]

/-- Concrete instance of regions_mutually_exclusive at the point (0,0). -/
theorem regions_mutually_exclusive_witness :
    regionCount 0 0 ≤ 1 ∧
    (((0 : ℚ) + 0 = 1/4 ∨ (0 : ℚ) + 0 = 1 ∨ (0 : ℚ) + 0 = 7/4 ∨
      (0 : ℚ) - 0 = 1/2 ∨ (0 : ℚ) - 0 = -(1/2)) → regionCount 0 0 = 0) :=
  regions_mutually_exclusive 0 0 (by norm_num) (by norm_num) (by norm_num) (by norm_num)

/-! Multi-hop neighborhoods. -/

/-- multi_hop_neighborhood: for h = 1 the neighbor set of v, otherwise the
union of the (h-1)-hop neighborhoods of the neighbors of v.  The graph is
its neighbor function N.  (On h = 0 the source recurses forever; the claim
is restricted to h ≥ 1, and that case is rendered as the empty set.) -/
def multi_hop_neighborhood (N : ℕ → Finset ℕ) : ℕ → ℕ → Finset ℕ
  | _, 0 => ∅
  | v, 1 => N v
  | v, h + 2 => (N v).biUnion (fun nbr => multi_hop_neighborhood N nbr (h + 1))

/-- C10: for h ≥ 1, w is in the h-hop neighborhood of v exactly when some
walk of exactly h edges leads from v to w; it is reachability by walks of
length exactly h, not the set of nodes within distance h (v itself can be
a member at even h, and nearer nodes of the wrong parity can be absent). -/
theorem multi_hop_neighborhood_correct (N : ℕ → Finset ℕ) :
    ∀ (h v w : ℕ), 1 ≤ h →
      (w ∈ multi_hop_neighborhood N v h ↔
        ∃ p : List ℕ, List.Chain (fun a b => b ∈ N a) v p ∧ p.length = h ∧
          p.getLast? = some w)
  | 0, v, w, hh => by omega
  | 1, v, w, _ => by
    constructor
    · intro hw
      exact ⟨[w], List.Chain.cons hw List.Chain.nil, rfl, rfl⟩
    · rintro ⟨p, hc, hl, hlast⟩
      cases p with
      | nil => simp at hl
      | cons a t =>
        cases t with
        | nil =>
          cases hc with
          | cons ha _ =>
            simp only [List.getLast?_singleton, Option.some.injEq] at hlast
            rw [← hlast]
            exact ha
        | cons b t2 => simp at hl
  | h + 2, v, w, _ => by
    show w ∈ (N v).biUnion (fun nbr => multi_hop_neighborhood N nbr (h + 1)) ↔ _
    rw [Finset.mem_biUnion]
    constructor
    · rintro ⟨nbr, hnbr, hw⟩
      obtain ⟨p, hc, hl, hlast⟩ :=
        (multi_hop_neighborhood_correct N (h + 1) nbr w (by omega)).mp hw
      refine ⟨nbr :: p, List.Chain.cons hnbr hc, by simp [hl], ?_⟩
      cases p with
      | nil => simp at hl
      | cons b t2 => rw [List.getLast?_cons_cons]; exact hlast
    · rintro ⟨p, hc, hl, hlast⟩
      cases p with
      | nil => simp at hl
      | cons a t =>
        cases hc with
        | cons ha hc2 =>
          refine ⟨a, ha,
            (multi_hop_neighborhood_correct N (h + 1) a w (by omega)).mpr
              ⟨t, hc2, by simpa using hl, ?_⟩⟩
          cases t with
          | nil => simp at hl
          | cons b t2 => rw [← hlast, List.getLast?_cons_cons]

/-- A sample neighbor function for the witness: the path graph 0 - 1 - 2. -/
def sampleN : ℕ → Finset ℕ :=
  fun v => if v = 0 then {1} else if v = 1 then {0, 2} else if v = 2 then {1} else ∅

/-- Concrete instance of multi_hop_neighborhood_correct: 2-hop neighborhood
of node 0 in the path graph 0 - 1 - 2. -/
theorem multi_hop_neighborhood_correct_witness :
    (2 : ℕ) ∈ multi_hop_neighborhood sampleN 0 2 ↔
      ∃ p : List ℕ, List.Chain (fun a b => b ∈ sampleN a) 0 p ∧ p.length = 2 ∧
        p.getLast? = some 2 :=
  multi_hop_neighborhood_correct sampleN 2 0 2 (by decide)

/-- Concrete instance of path_to_flow_correct: the path [0,1,2,1] over
E = [(0,1),(1,2)], read at edge (1,2): one up-traversal, one
down-traversal, net 0. -/
theorem path_to_flow_correct_witness :
    (path_to_flow [0,1,2,1] [(0,1),(1,2)]).getD
        (([(0,1),(1,2)] : List (ℕ × ℕ)).indexOf (1,2)) 0
      = ((steps [0,1,2,1]).count ((1 : ℕ), (2 : ℕ)) : Int)
        - ((steps [0,1,2,1]).count ((2 : ℕ), (1 : ℕ)) : Int) :=
  path_to_flow_correct [0,1,2,1] [(0,1),(1,2)] (1,2) (by decide)
    (by decide) (by decide) (by decide)
